import Mathlib

/-!
Verification of the document summarisation / question-answer backend
(src/logic.py) against its specification.

Python strings are modelled shallowly as lists of characters (Str).
Each definition below is a direct translation of the corresponding
Python construct in src/logic.py; the external generation service
(model.generate_content) is modelled by an explicit Option Str
parameter, following the spec boundary
  generate(prompt) -> text | null.
-/

abbrev Str := List Char

/-- Whitespace set of Python str.strip with no arguments (ASCII part). -/
def isPyWS (c : Char) : Bool :=
  c = ' ' || c = '\t' || c = '\n' || c = '\r' || c = '\x0b' || c = '\x0c'

/-- Python s.lstrip() - drop leading whitespace. -/
def pyStripLeft (s : Str) : Str := s.dropWhile isPyWS

/-- Python s.rstrip() - drop trailing whitespace. -/
def pyStripRight (s : Str) : Str := (s.reverse.dropWhile isPyWS).reverse

/-- Python s.strip() - drop whitespace on both ends. -/
def pyStrip (s : Str) : Str := pyStripLeft (pyStripRight s)

/-- The bullet-marker characters stripped by line.lstrip of the three
marker characters in generate_summary (src/logic.py line 80). -/
def isMarker (c : Char) : Bool :=
  c = '•' || c = '*' || c = '-'

/-- Python line.lstrip of the marker characters: drops the leading run of
bullet/star/dash characters only. -/
def lstripMarkers (s : Str) : Str := s.dropWhile isMarker

/-- Python s.split(sep) for a single-character separator
(used as split on a newline in both formatters). -/
def splitOnC (sep : Char) : Str → List Str
  | [] => [[]]
  | c :: rest =>
    if c = sep then [] :: splitOnC sep rest
    else
      match splitOnC sep rest with
      | [] => [[c]]
      | p :: ps => (c :: p) :: ps

/-- Python line.split of the two-character marker token (two stars),
splitting left to right on non-overlapping occurrences
(src/logic.py line 82). -/
def splitStar2 : Str → List Str
  | [] => [[]]
  | [c] => [[c]]
  | c :: d :: rest =>
    if c = '*' ∧ d = '*' then [] :: splitStar2 rest
    else
      match splitStar2 (d :: rest) with
      | [] => [[c]]
      | p :: ps => (c :: p) :: ps

/-- Python empty-separator join over a list of strings. -/
def joinStrs : List Str → Str
  | [] => []
  | l :: rest => l ++ joinStrs rest

/-- Python sep.join over a list of strings. -/
def joinWith (sep : Str) : List Str → Str
  | [] => []
  | [l] => l
  | l :: rest => l ++ sep ++ joinWith sep rest

/-- The strong-emphasis wrapping applied to an odd-indexed segment
(src/logic.py line 86). -/
def strongWrap (p : Str) : Str :=
  "<strong>".data ++ p ++ "</strong>".data

/-- The accumulating loop of src/logic.py lines 83-88: walk the segments
produced by the marker split with their index i, appending the wrapped
segment when i is odd and the plain segment when i is even. -/
def emphAux : Nat → List Str → Str
  | _, [] => []
  | i, p :: ps => (if i % 2 = 1 then strongWrap p else p) ++ emphAux (i + 1) ps

/-- Per-line body of the summary formatting loop (src/logic.py lines 77-92):
strip the line; a blank line produces nothing; otherwise strip the leading
marker run, strip whitespace again, split on the two-star token, render the
segments by index parity, then prepend one normalized bullet and append the
line separator. -/
def formatSummaryLine (rawLine : Str) : Option Str :=
  let line := pyStrip rawLine
  if line = [] then none
  else
    let line2 := pyStrip (lstripMarkers line)
    let parts := splitStar2 line2
    let formatted_line := emphAux 0 parts
    some ("• ".data ++ formatted_line ++ "<br><br>".data)

/-- The formatted_lines list of src/logic.py lines 73-92: strip the raw
reply, split it into lines, format each non-blank line. -/
def formattedLines (raw : Str) : List Str :=
  (splitOnC '\n' (pyStrip raw)).filterMap formatSummaryLine

/-- The formatted_summary string of src/logic.py line 94. -/
def formatSummaryText (raw : Str) : Str := joinStrs (formattedLines raw)

/-- Outcome of running a Python function: a normal return value or an
uncaught exception (named by its Python exception class). -/
inductive PyOutcome (α : Type) where
  | ok : α → PyOutcome α
  | exn : String → PyOutcome α
deriving DecidableEq

/-- generate_summary after the external generation call
(src/logic.py lines 70-97).  The response parameter models the reply of
model.generate_content: some text when the service answered, none when it
returned no reply.  When response is truthy the function formats and
returns formatted_summary (line 95).  When response is falsy the body of
the conditional at line 72 is skipped, so the name formatted_lines is
unbound at line 94 and the function raises UnboundLocalError; the
fixed-string return at line 97 sits after the return at line 95 and is
unreachable. -/
def generate_summary (response : Option Str) : PyOutcome Str :=
  match response with
  | some r => .ok (formatSummaryText r)
  | none => .exn "UnboundLocalError"

/-- The literal prefix token recognised at src/logic.py line 127. -/
def qTag : Str := "Question:".data

/-- The literal prefix token recognised at src/logic.py line 133. -/
def aTag : Str := "Answer:".data

/-- The line-break-plus-strong wrapping of a recognised Question or Answer
line (src/logic.py lines 132 and 134). -/
def wrapBr (l : Str) : Str :=
  "<br><strong>".data ++ l ++ "</strong>".data

/-- The block separator appended when a block is closed
(src/logic.py lines 130 and 139). -/
def blockSep : Str := "<br><br>".data

/-- One iteration of the Q/A loop of src/logic.py lines 125-136 over the
state (formatted_text, current_block). -/
def qaStep (st : List Str × List Str) (rawLine : Str) : List Str × List Str :=
  let line := pyStrip rawLine
  if qTag.isPrefixOf line then
    let blocks := if st.2 ≠ [] then st.1 ++ [joinStrs st.2 ++ blockSep] else st.1
    (blocks, [wrapBr line])
  else if aTag.isPrefixOf line then
    (st.1, st.2 ++ [wrapBr line])
  else
    (st.1, st.2 ++ [line])

/-- The whole Q/A loop, folding qaStep over the lines. -/
def qaFold (st : List Str × List Str) (ls : List Str) : List Str × List Str :=
  ls.foldl qaStep st

/-- End-of-input flush of src/logic.py lines 138-139: a still-open block is
closed and appended. -/
def qaFinish (st : List Str × List Str) : List Str :=
  if st.2 ≠ [] then st.1 ++ [joinStrs st.2 ++ blockSep] else st.1

/-- The list of closed blocks produced from a line list. -/
def qaBlocksOfLines (lines : List Str) : List Str :=
  qaFinish (qaFold ([], []) lines)

/-- The formatted_text block list built from a raw reply
(src/logic.py lines 120-139). -/
def qaBlocks (raw : Str) : List Str :=
  qaBlocksOfLines (splitOnC '\n' (pyStrip raw))

/-- The formatted_response string of src/logic.py line 141. -/
def qaFormatText (raw : Str) : Str := pyStrip (joinStrs (qaBlocks raw))

/-- generate_qa after the external generation call
(src/logic.py lines 118-144): with a reply the formatted blocks are
returned, with no reply the fixed failure string is returned. -/
def generate_qa (response : Option Str) : Str :=
  match response with
  | some r => qaFormatText r
  | none => "Response generation failed.".data

/-- An uploaded file as extract_text sees it: the filename plus, for each
container library used in src/logic.py lines 27-46, the text units that
library would yield (page texts for fitz, paragraph texts for docx, and
the shapes of the deck for pptx, where a shape with no text attribute is
none). -/
structure UploadFile where
  filename : Str
  pdfPages : List Str
  docxParas : List Str
  pptxShapes : List (Option Str)

/-- ASCII lower-casing of one character, as filename.lower() acts on
ASCII filenames: code points 65-90 (A-Z) shift by 32, everything else is
unchanged. -/
def lowerC (c : Char) : Char :=
  if 65 ≤ c.toNat ∧ c.toNat ≤ 90 then Char.ofNat (c.toNat + 32) else c

/-- Python filename.lower(). -/
def pyLower (s : Str) : Str := s.map lowerC

/-- Python s.endswith(suffix). -/
def endsWithPy (s suffix : Str) : Bool := suffix.isSuffixOf s

/-- extract_text (src/logic.py lines 24-49): dispatch on the lowered
filename suffix; pdf pages are concatenated with no separator, docx
paragraphs and the texts of pptx shapes that have a text attribute are
joined with newlines; any other name returns None without the content
being read. -/
def extract_text (file : UploadFile) : Option Str :=
  let filename := pyLower file.filename
  if endsWithPy filename ".pdf".data then
    some (joinStrs file.pdfPages)
  else if endsWithPy filename ".docx".data then
    some (joinWith ['\n'] file.docxParas)
  else if endsWithPy filename ".pptx".data then
    some (joinWith ['\n'] (file.pptxShapes.filterMap id))
  else
    none

/-- The fixed instruction preamble of the small summary prompt
(src/logic.py lines 53-56). -/
def smallSummaryPreamble : Str :=
  ("Summarize the following text in a short bullet-point summary. " ++
   "Use \x27•\x27 for bullet points and ensure each point starts on a new line:\n\n").data

/-- The medium summary preamble (src/logic.py lines 58-62). -/
def mediumSummaryPreamble : Str :=
  ("Provide a medium-length bullet-point summary of the following text. " ++
   "If the content is too short, expand with more context. " ++
   "Use \x27•\x27 for bullet points and ensure each point starts on a new line:\n\n").data

/-- The large summary preamble (src/logic.py lines 64-68). -/
def largeSummaryPreamble : Str :=
  ("Provide a detailed bullet-point summary of the following text. " ++
   "If the content is too short, expand with comprehensive details. " ++
   "Use \x27•\x27 for bullet points and ensure each point starts on a new line:\n\n").data

/-- The prompt built by generate_summary (src/logic.py lines 52-68): one of
three fixed instruction preambles followed by the extracted text verbatim. -/
def summaryPrompt (text : Str) (summary_type : Str) : Str :=
  if summary_type = "small".data then smallSummaryPreamble ++ text
  else if summary_type = "medium".data then mediumSummaryPreamble ++ text
  else largeSummaryPreamble ++ text

/-- The error message of src/logic.py lines 152 and 167. -/
def noFileMsg : Str := "No file provided".data

/-- The error message of src/logic.py lines 156 and 171 (shared by the
summary and qa routes). -/
def extractErrMsg : Str :=
  "Failed to extract text from the uploaded file. Make sure it’s a .pdf, .docx, or .pptx".data

/-- The fixed failure string of generate_qa (src/logic.py line 144). -/
def qaFailMsg : Str := "Response generation failed.".data

/-- A JSON reply of the two routes: either the payload field with HTTP 200
or the error field with an explicit status code. -/
inductive HttpReply where
  | json_ok : Str → HttpReply
  | json_err : Str → Nat → HttpReply
deriving DecidableEq

/-- The /summary route handler summarize_file (src/logic.py lines 146-159).
The file parameter models request.files.get (none when no file was sent);
genReply models the reply of the external generation call made inside
generate_summary.  The check at line 155 is Python falsiness, so it
catches both None (unsupported format) and the empty string (a document
with zero extractable characters). -/
def summarize_file (file : Option UploadFile) (summary_type : Str)
    (genReply : Option Str) : PyOutcome HttpReply :=
  match file with
  | none => .ok (.json_err noFileMsg 400)
  | some f =>
    match extract_text f with
    | none => .ok (.json_err extractErrMsg 500)
    | some t =>
      if t = [] then .ok (.json_err extractErrMsg 500)
      else
        let _prompt := summaryPrompt t summary_type
        match generate_summary genReply with
        | .ok s => .ok (.json_ok s)
        | .exn e => .exn e

/-- The /qa route handler qa_file (src/logic.py lines 161-174), with the
same falsiness check on the extracted text at line 170. -/
def qa_file (file : Option UploadFile) (level : Str)
    (genReply : Option Str) : PyOutcome HttpReply :=
  match file with
  | none => .ok (.json_err noFileMsg 400)
  | some f =>
    match extract_text f with
    | none => .ok (.json_err extractErrMsg 500)
    | some t =>
      if t = [] then .ok (.json_err extractErrMsg 500)
      else .ok (.json_ok (generate_qa genReply))

/-- Claim-side notion of a filename extension: the text after the last dot,
absent when the name has no dot. -/
def extOf (name : Str) : Option Str :=
  if '.' ∈ name then some ((name.reverse.takeWhile (fun c => c ≠ '.')).reverse)
  else none

/-- Scanner for an occurrence of the two-star marker token anywhere in a
string. -/
def hasSS : Str → Bool
  | [] => false
  | [_] => false
  | c :: d :: rest => (c == '*' && d == '*') || hasSS (d :: rest)

/-! ## Lemmas about the string primitives -/

theorem pyStripLeft_cons_of_not_ws {c : Char} (s : Str) (h : isPyWS c = false) :
    pyStripLeft (c :: s) = c :: s := by
  simp [pyStripLeft, List.dropWhile_cons, h]

theorem pyStripRight_eq_self {s : Str}
    (h : ∀ d, s.getLast? = some d → isPyWS d = false) : pyStripRight s = s := by
  unfold pyStripRight
  cases hr : s.reverse with
  | nil =>
      have hs : s = [] := by simpa using congrArg List.reverse hr
      simp [hs]
  | cons d t =>
      have hd : s.getLast? = some d := by rw [← List.head?_reverse, hr]; rfl
      rw [List.dropWhile_cons, h d hd]
      simp only [Bool.false_eq_true, if_false]
      rw [← hr, List.reverse_reverse]

theorem not_ws_head_of_stripLeft_eq {c : Char} {s : Str}
    (h : pyStripLeft (c :: s) = c :: s) : isPyWS c = false := by
  cases hb : isPyWS c with
  | false => rfl
  | true =>
      exfalso
      rw [pyStripLeft, List.dropWhile_cons, hb] at h
      simp only [if_true] at h
      have hlen := congrArg List.length h
      have hle : (List.dropWhile isPyWS s).length ≤ s.length :=
        (List.dropWhile_suffix isPyWS).length_le
      simp at hlen
      omega

theorem not_ws_getLast_of_stripRight_eq {s : Str} {d : Char}
    (h : pyStripRight s = s) (hd : s.getLast? = some d) : isPyWS d = false := by
  cases hr : s.reverse with
  | nil =>
      rw [← List.head?_reverse, hr] at hd
      simp at hd
  | cons e t =>
      have he : e = d := by
        rw [← List.head?_reverse, hr] at hd
        simpa using hd
      subst he
      have h2 : List.dropWhile isPyWS (e :: t) = e :: t := by
        have h3 := congrArg List.reverse h
        rw [pyStripRight, List.reverse_reverse, hr] at h3
        exact h3
      cases hb : isPyWS e with
      | false => rfl
      | true =>
          exfalso
          rw [List.dropWhile_cons, hb] at h2
          simp only [if_true] at h2
          have hlen := congrArg List.length h2
          have hle : (List.dropWhile isPyWS t).length ≤ t.length :=
            (List.dropWhile_suffix isPyWS).length_le
          simp at hlen
          omega

theorem pyStrip_eq_self {s : Str}
    (h1 : ∀ c, s.head? = some c → isPyWS c = false)
    (h2 : ∀ d, s.getLast? = some d → isPyWS d = false) : pyStrip s = s := by
  unfold pyStrip
  rw [pyStripRight_eq_self h2]
  cases s with
  | nil => rfl
  | cons c t => exact pyStripLeft_cons_of_not_ws t (h1 c rfl)

theorem splitOnC_no_sep {sep : Char} : ∀ (s : Str), sep ∉ s → splitOnC sep s = [s]
  | [], _ => rfl
  | c :: rest, h => by
      have hc : ¬ c = sep := fun hcs => h (hcs ▸ List.mem_cons_self c rest)
      have ih := splitOnC_no_sep rest (fun hm => h (List.mem_cons_of_mem c hm))
      simp [splitOnC, hc, ih]

theorem splitOnC_append {sep : Char} : ∀ (a b : Str), sep ∉ a →
    splitOnC sep (a ++ sep :: b) = a :: splitOnC sep b
  | [], b, _ => by simp [splitOnC]
  | c :: a, b, h => by
      have hc : ¬ c = sep := fun hcs => h (hcs ▸ List.mem_cons_self c a)
      have ih := splitOnC_append a b (fun hm => h (List.mem_cons_of_mem c hm))
      simp [splitOnC, hc, ih]

theorem joinWith_cons_cons (sep : Str) (x y : Str) (ls : List Str) :
    joinWith sep (x :: y :: ls) = x ++ sep ++ joinWith sep (y :: ls) := rfl

theorem splitOnC_joinWith {sep : Char} : ∀ (ls : List Str), ls ≠ [] →
    (∀ l ∈ ls, sep ∉ l) → splitOnC sep (joinWith [sep] ls) = ls
  | [], h, _ => absurd rfl h
  | [l], _, h => by
      show splitOnC sep l = [l]
      exact splitOnC_no_sep l (h l (List.mem_cons_self l []))
  | l :: l' :: ls, _, h => by
      have ih := splitOnC_joinWith (l' :: ls) (by simp)
        (fun x hx => h x (List.mem_cons_of_mem l hx))
      rw [joinWith_cons_cons]
      rw [show l ++ [sep] ++ joinWith [sep] (l' :: ls) =
            l ++ sep :: joinWith [sep] (l' :: ls) by simp]
      rw [splitOnC_append l _ (h l (List.mem_cons_self l _)), ih]

theorem joinStrs_cons (l : Str) (ls : List Str) :
    joinStrs (l :: ls) = l ++ joinStrs ls := rfl

theorem splitStar2_ne_nil : ∀ (s : Str), splitStar2 s ≠ []
  | [] => by simp [splitStar2]
  | [c] => by simp [splitStar2]
  | c :: d :: rest => by
      by_cases h : c = '*' ∧ d = '*'
      · simp [splitStar2, h]
      · rcases hq : splitStar2 (d :: rest) with _ | ⟨q, qs⟩
        · exact absurd hq (splitStar2_ne_nil (d :: rest))
        · simp [splitStar2, h, hq]

theorem splitStar2_no_star : ∀ (s : Str), '*' ∉ s → splitStar2 s = [s]
  | [], _ => rfl
  | [_], _ => rfl
  | c :: d :: rest, h => by
      have hc : ¬ c = '*' := fun h' => h (List.mem_cons.mpr (Or.inl h'.symm))
      have ih := splitStar2_no_star (d :: rest) (fun hm => h (List.mem_cons_of_mem c hm))
      simp [splitStar2, hc, ih]

theorem splitStar2_append_token : ∀ (a : Str), '*' ∉ a → ∀ (b : Str),
    splitStar2 (a ++ '*' :: '*' :: b) = a :: splitStar2 b
  | [], _, b => by simp [splitStar2]
  | [c], h, b => by
      have hc : ¬ c = '*' := fun h' => h (List.mem_singleton.mpr h'.symm)
      have h2 : splitStar2 ('*' :: '*' :: b) = [] :: splitStar2 b := by simp [splitStar2]
      simp [splitStar2, hc, h2]
  | c :: c' :: a, h, b => by
      have hc : ¬ c = '*' := fun h' => h (List.mem_cons.mpr (Or.inl h'.symm))
      have ih := splitStar2_append_token (c' :: a) (fun hm => h (List.mem_cons_of_mem c hm)) b
      rw [show (c' :: a) ++ '*' :: '*' :: b = c' :: (a ++ '*' :: '*' :: b) from rfl] at ih
      simp only [List.cons_append]
      simp [splitStar2, hc, ih]

/-! ## The two-star token never survives summary formatting -/

theorem hasSS_cons_cons (c d : Char) (t : Str) :
    hasSS (c :: d :: t) = ((c == '*' && d == '*') || hasSS (d :: t)) := rfl

theorem hasSS_append : ∀ (a : Str), hasSS a = false → ∀ (b : Str), hasSS b = false →
    (a.getLast? = some '*' → b.head? = some '*' → False) → hasSS (a ++ b) = false
  | [], _, _, hb, _ => hb
  | [c], _, b, hb, hx => by
      cases b with
      | nil => rfl
      | cons d r =>
          by_cases hc : c = '*'
          · by_cases hd : d = '*'
            · exact ((hx (by simp [hc]) (by simp [hd]))).elim
            · rw [List.singleton_append, hasSS_cons_cons, hb]
              simp [hd]
          · rw [List.singleton_append, hasSS_cons_cons, hb]
            simp [hc]
  | c :: c' :: a, ha, b, hb, hx => by
      rw [hasSS_cons_cons] at ha
      have hsplit := Bool.or_eq_false_iff.mp ha
      have ih := hasSS_append (c' :: a) hsplit.2 b hb
        (fun hl hh => hx (by rw [List.getLast?_cons_cons]; exact hl) hh)
      rw [List.cons_append, List.cons_append, hasSS_cons_cons,
        show c' :: (a ++ b) = (c' :: a) ++ b from rfl, ih, hsplit.1]
      rfl

theorem strongWrap_getLast? (p : Str) : (strongWrap p).getLast? = some '>' := by
  unfold strongWrap
  rw [List.getLast?_append_of_ne_nil _ (by decide)]
  rfl

theorem hasSS_strongWrap {p : Str} (hp : hasSS p = false) : hasSS (strongWrap p) = false := by
  have inner : hasSS ("<strong>".data ++ p) = false := by
    refine hasSS_append _ (by decide) _ hp ?_
    intro hl _
    rw [show ("<strong>".data : Str).getLast? = some '>' from rfl] at hl
    exact absurd hl (by decide)
  refine hasSS_append _ inner _ (by decide) ?_
  intro _ hh
  rw [show ("</strong>".data : Str).head? = some '<' from rfl] at hh
  exact absurd hh (by decide)

theorem emphAux_head?_odd (i : Nat) (p : Str) (ps : List Str) (hi : i % 2 = 1) :
    (emphAux i (p :: ps)).head? = some '<' := by
  unfold emphAux
  rw [if_pos hi]
  rfl

theorem hasSS_emphAux : ∀ (i : Nat) (ps : List Str),
    (∀ p ∈ ps, hasSS p = false) → hasSS (emphAux i ps) = false
  | _, [], _ => rfl
  | i, p :: ps, h => by
      have hp := h p (List.mem_cons_self p ps)
      have hrest := hasSS_emphAux (i + 1) ps (fun q hq => h q (List.mem_cons_of_mem _ hq))
      unfold emphAux
      by_cases hi : i % 2 = 1
      · rw [if_pos hi]
        refine hasSS_append _ (hasSS_strongWrap hp) _ hrest ?_
        intro hl _
        rw [strongWrap_getLast?] at hl
        exact absurd hl (by decide)
      · rw [if_neg hi]
        refine hasSS_append _ hp _ hrest ?_
        intro _ hh
        cases ps with
        | nil => simp [emphAux] at hh
        | cons q qs =>
            rw [emphAux_head?_odd (i + 1) q qs (by omega)] at hh
            exact absurd hh (by decide)

theorem splitStar2_head? : ∀ (s : Str) (p : Str) (ps : List Str),
    splitStar2 s = p :: ps → p = [] ∨ p.head? = s.head?
  | [], p, _, h => by
      injection h with h1 _
      exact Or.inl h1.symm
  | [c], p, _, h => by
      injection h with h1 _
      subst h1
      exact Or.inr rfl
  | c :: d :: rest, p, ps, h => by
      by_cases hcd : c = '*' ∧ d = '*'
      · simp only [splitStar2] at h
        rw [if_pos hcd] at h
        injection h with h1 _
        exact Or.inl h1.symm
      · simp only [splitStar2] at h
        rw [if_neg hcd] at h
        rcases hq : splitStar2 (d :: rest) with _ | ⟨q, qs⟩
        · exact absurd hq (splitStar2_ne_nil _)
        · rw [hq] at h
          injection h with h1 _
          subst h1
          exact Or.inr rfl

theorem splitStar2_no_ss : ∀ (s : Str) (p : Str), p ∈ splitStar2 s → hasSS p = false
  | [], p, hp => by
      simp [splitStar2] at hp
      subst hp
      rfl
  | [c], p, hp => by
      simp [splitStar2] at hp
      subst hp
      rfl
  | c :: d :: rest, p, hp => by
      by_cases hcd : c = '*' ∧ d = '*'
      · simp only [splitStar2] at hp
        rw [if_pos hcd] at hp
        rcases List.mem_cons.mp hp with h1 | h2
        · subst h1; rfl
        · exact splitStar2_no_ss rest p h2
      · simp only [splitStar2] at hp
        rw [if_neg hcd] at hp
        rcases hq : splitStar2 (d :: rest) with _ | ⟨q, qs⟩
        · exact absurd hq (splitStar2_ne_nil _)
        · rw [hq] at hp
          rcases List.mem_cons.mp hp with h1 | h2
          · subst h1
            have hqmem : q ∈ splitStar2 (d :: rest) := by
              rw [hq]; exact List.mem_cons_self q qs
            have hqss := splitStar2_no_ss (d :: rest) q hqmem
            have hqh := splitStar2_head? (d :: rest) q qs hq
            cases q with
            | nil => rfl
            | cons e t =>
                have he : e = d := by
                  rcases hqh with h0 | h0
                  · exact absurd h0 (by simp)
                  · simpa using h0
                subst he
                rw [hasSS_cons_cons, hqss]
                by_cases hc : c = '*'
                · by_cases hd : e = '*'
                  · exact absurd ⟨hc, hd⟩ hcd
                  · simp [hd]
                · simp [hc]
          · exact splitStar2_no_ss (d :: rest) p
              (by rw [hq]; exact List.mem_cons_of_mem _ h2)

theorem formatSummaryLine_eq_none {raw : Str} (h : pyStrip raw = []) :
    formatSummaryLine raw = none := by
  simp [formatSummaryLine, h]

theorem formatSummaryLine_eq_some {raw : Str} (h : ¬ pyStrip raw = []) :
    formatSummaryLine raw = some ("• ".data ++
      emphAux 0 (splitStar2 (pyStrip (lstripMarkers (pyStrip raw)))) ++ "<br><br>".data) := by
  simp [formatSummaryLine, h]

theorem formatted_line_props {raw l : Str} (h : formatSummaryLine raw = some l) :
    hasSS l = false ∧ l.head? = some '•' ∧ l.getLast? = some '>' := by
  by_cases hb : pyStrip raw = []
  · rw [formatSummaryLine_eq_none hb] at h
    exact absurd h (by simp)
  · rw [formatSummaryLine_eq_some hb] at h
    injection h with h'
    subst h'
    refine ⟨?_, rfl, ?_⟩
    · have hemph : hasSS (emphAux 0 (splitStar2 (pyStrip (lstripMarkers (pyStrip raw))))) = false :=
        hasSS_emphAux 0 _ (fun p hp => splitStar2_no_ss _ p hp)
      have inner : hasSS ("• ".data ++
          emphAux 0 (splitStar2 (pyStrip (lstripMarkers (pyStrip raw))))) = false := by
        refine hasSS_append _ (by decide) _ hemph ?_
        intro hl _
        rw [show ("• ".data : Str).getLast? = some ' ' from rfl] at hl
        exact absurd hl (by decide)
      refine hasSS_append _ inner _ (by decide) ?_
      intro _ hh
      rw [show ("<br><br>".data : Str).head? = some '<' from rfl] at hh
      exact absurd hh (by decide)
    · rw [List.getLast?_append_of_ne_nil _ (by decide)]
      rfl

theorem member_line_props {raw l : Str} (hl : l ∈ formattedLines raw) :
    hasSS l = false ∧ l.head? = some '•' ∧ l.getLast? = some '>' := by
  rw [formattedLines, List.mem_filterMap] at hl
  obtain ⟨a, _, ha⟩ := hl
  exact formatted_line_props ha

theorem hasSS_joinStrs_lines : ∀ (ls : List Str),
    (∀ l ∈ ls, hasSS l = false ∧ l.head? = some '•' ∧ l.getLast? = some '>') →
    hasSS (joinStrs ls) = false
  | [], _ => rfl
  | l :: ls, h => by
      have hl := h l (List.mem_cons_self l ls)
      have ih := hasSS_joinStrs_lines ls (fun x hx => h x (List.mem_cons_of_mem _ hx))
      rw [joinStrs_cons]
      refine hasSS_append _ hl.1 _ ih ?_
      intro hlast _
      rw [hl.2.2] at hlast
      exact absurd hlast (by decide)

/-- Claim C2 (amended): for every raw reply, the summary formatter output
never contains the two-character marker token of two consecutive stars,
and every emitted line starts with exactly one normalized bullet glyph
followed by a space.  (The original claim that no literal star or bullet
character at all survives is false: only the leading run of marker
characters of each line is stripped, so markers in the middle of a line -
or leading markers separated from the start by whitespace - are carried
through; see the counterexample.) -/
theorem spec_c2_normalized_markers (raw : Str) :
    hasSS (formatSummaryText raw) = false ∧
    (formattedLines raw).all (fun l => l.take 2 == "• ".data) = true := by
  constructor
  · exact hasSS_joinStrs_lines (formattedLines raw) (fun l hl => member_line_props hl)
  · rw [List.all_eq_true]
    intro l hl
    rw [formattedLines, List.mem_filterMap] at hl
    obtain ⟨a, _, ha⟩ := hl
    by_cases hb : pyStrip a = []
    · rw [formatSummaryLine_eq_none hb] at ha
      exact absurd ha (by simp)
    · rw [formatSummaryLine_eq_some hb] at ha
      injection ha with h'
      subst h'
      rfl

/-- Claim C2 counterexample: the reply consisting of the single line
made of a bullet, a space, a second bullet and the text a-star-b is
formatted into output that still contains a literal star character and a
second (carried-over) bullet glyph after the normalized leading one, so
the claimed invariant is false as stated. -/
theorem spec_c2_counterexample :
    formatSummaryText "• • a * b".data = "• • a * b<br><br>".data ∧
    '*' ∈ formatSummaryText "• • a * b".data ∧
    '•' ∈ (formatSummaryText "• • a * b".data).drop 1 := by
  refine ⟨by decide, by decide, by decide⟩

/-! ## The Q/A block state machine -/

theorem qaStep_question {blocks cur : List Str} {q : Str}
    (hcur : cur ≠ []) (hq : qTag.isPrefixOf (pyStrip q) = true) :
    qaStep (blocks, cur) q = (blocks ++ [joinStrs cur ++ blockSep], [wrapBr (pyStrip q)]) := by
  simp [qaStep, hq, hcur]

theorem qaStep_question_nil {blocks : List Str} {q : Str}
    (hq : qTag.isPrefixOf (pyStrip q) = true) :
    qaStep (blocks, []) q = (blocks, [wrapBr (pyStrip q)]) := by
  simp [qaStep, hq]

theorem qaFinish_closes {blocks cur : List Str} (hcur : cur ≠ []) :
    qaFinish (blocks, cur) = blocks ++ [joinStrs cur ++ blockSep] := by
  simp [qaFinish, hcur]

theorem qaFinish_append (X Y : List Str) (cur : List Str) :
    qaFinish (X ++ Y, cur) = X ++ qaFinish (Y, cur) := by
  by_cases hcur : cur = []
  · simp [qaFinish, hcur]
  · simp [qaFinish, hcur]

theorem qaStep_blocks_extend (B : List Str) (cur : List Str) (l : Str) :
    qaStep (B, cur) l = (B ++ (qaStep ([], cur) l).1, (qaStep ([], cur) l).2) := by
  by_cases hq : qTag.isPrefixOf (pyStrip l) = true
  · by_cases hcur : cur = []
    · subst hcur
      simp [qaStep, hq]
    · simp [qaStep, hq, hcur]
  · by_cases ha : aTag.isPrefixOf (pyStrip l) = true
    · simp [qaStep, hq, ha]
    · simp [qaStep, hq, ha]

theorem qaFold_cons (st : List Str × List Str) (l : Str) (ls : List Str) :
    qaFold st (l :: ls) = qaFold (qaStep st l) ls := rfl

theorem qaFold_blocks_extend : ∀ (ls : List Str) (B cur : List Str),
    qaFold (B, cur) ls = (B ++ (qaFold ([], cur) ls).1, (qaFold ([], cur) ls).2)
  | [], B, cur => by simp [qaFold]
  | l :: ls, B, cur => by
      rw [qaFold_cons, qaFold_cons]
      rw [qaStep_blocks_extend B cur l]
      rcases hx : qaStep ([], cur) l with ⟨X1, X2⟩
      dsimp only
      rw [qaFold_blocks_extend ls (B ++ X1) X2]
      rw [qaFold_blocks_extend ls X1 X2]
      simp [List.append_assoc]

theorem qaFold_preamble : ∀ (pre : List Str) (B cur : List Str),
    (∀ l ∈ pre, qTag.isPrefixOf (pyStrip l) = false ∧ aTag.isPrefixOf (pyStrip l) = false) →
    qaFold (B, cur) pre = (B, cur ++ pre.map pyStrip)
  | [], B, cur, _ => by simp [qaFold]
  | l :: pre, B, cur, h => by
      have hl := h l (List.mem_cons_self l pre)
      rw [qaFold_cons]
      have hstep : qaStep (B, cur) l = (B, cur ++ [pyStrip l]) := by
        simp [qaStep, hl.1, hl.2]
      rw [hstep,
        qaFold_preamble pre B (cur ++ [pyStrip l]) (fun x hx => h x (List.mem_cons_of_mem _ hx))]
      simp

/-- Claim C3: a Question-prefixed line closes any open block (the joined
content plus the block separator is appended) and opens a new block whose
first element is the line-break-plus-strong wrapped line; at end of input
an open block is flushed, so a dangling Question line with no Answer is
still emitted; on the eight-line example of two question/answer pairs the
formatter produces exactly two closed blocks, each containing only its own
question and answer. -/
theorem spec_c3_qa_blocking :
    (∀ (blocks cur : List Str) (q : Str), cur ≠ [] → qTag.isPrefixOf (pyStrip q) = true →
        qaStep (blocks, cur) q = (blocks ++ [joinStrs cur ++ blockSep], [wrapBr (pyStrip q)])) ∧
    (∀ (blocks cur : List Str), cur ≠ [] →
        qaFinish (blocks, cur) = blocks ++ [joinStrs cur ++ blockSep]) ∧
    qaBlocks "Question:\nWhat is X?\nAnswer:\nX is Y.\nQuestion:\nWhat is Z?\nAnswer:\nZ is W.".data =
      ["<br><strong>Question:</strong>What is X?<br><strong>Answer:</strong>X is Y.<br><br>".data,
       "<br><strong>Question:</strong>What is Z?<br><strong>Answer:</strong>Z is W.<br><br>".data] ∧
    qaBlocks "Question:\nWhat?".data = ["<br><strong>Question:</strong>What?<br><br>".data] :=
  ⟨fun _ _ _ hcur hq => qaStep_question hcur hq,
   fun _ _ hcur => qaFinish_closes hcur,
   by decide, by decide⟩

/-- Witness for claim C3 at a concrete open block and Question line. -/
theorem spec_c3_qa_blocking_witness :
    qaStep (["b0".data], ["x".data]) "Question: more".data =
      (["b0".data] ++ [joinStrs ["x".data] ++ blockSep], [wrapBr (pyStrip "Question: more".data)]) ∧
    qaFinish (["b0".data], ["x".data]) = ["b0".data] ++ [joinStrs ["x".data] ++ blockSep] :=
  ⟨spec_c3_qa_blocking.1 ["b0".data] ["x".data] "Question: more".data (by decide) (by decide),
   spec_c3_qa_blocking.2.1 ["b0".data] ["x".data] (by decide)⟩

/-- Claim C10: lines arriving before the first Question-prefixed line
accumulate in the open block and are emitted as one leading block of
their own, placed before the blocks of the question/answer pairs and not
attached to any of them. -/
theorem spec_c10_preamble_block (pre rest : List Str) (q : Str)
    (hne : pre ≠ [])
    (hpre : ∀ l ∈ pre, qTag.isPrefixOf (pyStrip l) = false ∧ aTag.isPrefixOf (pyStrip l) = false)
    (hq : qTag.isPrefixOf (pyStrip q) = true) :
    qaBlocksOfLines (pre ++ q :: rest) =
      (joinStrs (pre.map pyStrip) ++ blockSep) :: qaBlocksOfLines (q :: rest) := by
  have hC : pre.map pyStrip ≠ [] := by simpa using hne
  unfold qaBlocksOfLines
  rw [show qaFold ([], []) (pre ++ q :: rest) =
        qaFold (qaFold ([], []) pre) (q :: rest) from (List.foldl_append ..)]
  rw [qaFold_preamble pre [] [] hpre]
  simp only [List.nil_append]
  rw [qaFold_cons, qaStep_question hC hq]
  simp only [List.nil_append]
  rw [qaFold_blocks_extend rest [joinStrs (pre.map pyStrip) ++ blockSep] [wrapBr (pyStrip q)]]
  rw [qaFinish_append]
  rw [qaFold_cons, qaStep_question_nil hq]
  rcases hF : qaFold ([], [wrapBr (pyStrip q)]) rest with ⟨F1, F2⟩
  simp

/-- Witness for claim C10: one preamble line followed by a question and an
answer; the preamble is emitted as its own leading block. -/
theorem spec_c10_preamble_block_witness :
    qaBlocksOfLines (["Here are some questions.".data] ++
        "Question:".data :: ["Q1?".data, "Answer:".data, "A1.".data]) =
      (joinStrs (["Here are some questions.".data].map pyStrip) ++ blockSep) ::
        qaBlocksOfLines ("Question:".data :: ["Q1?".data, "Answer:".data, "A1.".data]) :=
  spec_c10_preamble_block ["Here are some questions.".data]
    ["Q1?".data, "Answer:".data, "A1.".data] "Question:".data
    (by decide) (by decide) (by decide)

/-! ## Marker-parity rendering -/

theorem emphAux_enumFrom : ∀ (i : Nat) (ps : List Str),
    emphAux i ps = joinStrs ((ps.enumFrom i).map
      (fun ip => if ip.1 % 2 = 1 then strongWrap ip.2 else ip.2))
  | _, [] => rfl
  | i, p :: ps => by
      have ih := emphAux_enumFrom (i + 1) ps
      simp only [emphAux, List.enumFrom_cons, List.map_cons]
      rw [ih]
      rfl

/-- Claim C4: the rendering loop maps the segments of the two-star split
to output by index parity - odd-indexed segments are wrapped in
strong-emphasis markup, even-indexed segments stay plain, in order - for
every segment list, including those of odd length coming from an
unterminated marker run (the function is total, nothing is raised); on
the line a-stars-b-stars-c the segment b is emphasised and a and c stay
plain, and an unterminated run is tolerated. -/
theorem spec_c4_marker_parity :
    (∀ (parts : List Str), emphAux 0 parts = joinStrs ((parts.enum).map
        (fun ip => if ip.1 % 2 = 1 then strongWrap ip.2 else ip.2))) ∧
    formatSummaryLine "a **b** c".data = some "• a <strong>b</strong> c<br><br>".data ∧
    formatSummaryLine "a **b".data = some "• a <strong>b</strong><br><br>".data :=
  ⟨fun parts => emphAux_enumFrom 0 parts, by decide, by decide⟩

/-! ## Failure paths of the two routes -/

/-- Claim C1 (code bug): when the generation service returns no reply,
generate_qa does return its fixed failure string, but generate_summary
raises UnboundLocalError, because the only return of the failure string
sits after an unconditional return and the formatted_lines name is never
bound when the response is absent; the summary route therefore propagates
an exception instead of the fixed string. -/
theorem spec_c1_generation_failure :
    generate_summary none = PyOutcome.exn "UnboundLocalError" ∧
    generate_qa none = "Response generation failed.".data ∧
    summarize_file (some ⟨"doc.pdf".data, ["Hello.".data], [], []⟩) "small".data none =
      PyOutcome.exn "UnboundLocalError" ∧
    qa_file (some ⟨"doc.pdf".data, ["Hello.".data], [], []⟩) "small".data none =
      PyOutcome.ok (HttpReply.json_ok "Response generation failed.".data) :=
  ⟨rfl, rfl, by decide, by decide⟩

/-- Claim C5 counterexample: a structurally valid pdf-named upload with
zero extractable characters and an unsupported-extension upload produce
the identical error reply - same message string, same status - so the
empty-content failure is not distinct from the unsupported-format
failure. -/
theorem spec_c5_counterexample :
    qa_file (some ⟨"scan.pdf".data, [], [], []⟩) "small".data (some "x".data) =
      PyOutcome.ok (HttpReply.json_err extractErrMsg 500) ∧
    qa_file (some ⟨"notes.txt".data, [], [], []⟩) "small".data (some "x".data) =
      PyOutcome.ok (HttpReply.json_err extractErrMsg 500) := by
  refine ⟨by decide, by decide⟩

/-- Claim C5 (amended): the missing-file, extraction-failure and
generation-failure outcomes each carry their own distinct, stable,
human-readable message, but the empty-content case is folded into the
same message as the unsupported-format case by the falsy check on the
extracted text, and the Q/A generation-failure string is delivered in
the success payload rather than the error field. -/
theorem spec_c5_messages :
    noFileMsg ≠ extractErrMsg ∧ noFileMsg ≠ qaFailMsg ∧ extractErrMsg ≠ qaFailMsg ∧
    qa_file none "small".data (some "x".data) =
      PyOutcome.ok (HttpReply.json_err noFileMsg 400) ∧
    qa_file (some ⟨"notes.txt".data, [], [], []⟩) "small".data (some "x".data) =
      PyOutcome.ok (HttpReply.json_err extractErrMsg 500) ∧
    qa_file (some ⟨"scan.pdf".data, [], [], []⟩) "small".data (some "x".data) =
      PyOutcome.ok (HttpReply.json_err extractErrMsg 500) ∧
    qa_file (some ⟨"doc.pdf".data, ["T".data], [], []⟩) "small".data none =
      PyOutcome.ok (HttpReply.json_ok qaFailMsg) := by
  refine ⟨by decide, by decide, by decide, by decide, by decide, by decide, by decide⟩

/-- Claim C7: a pdf upload whose pages render to the two given texts
extracts to their concatenation in page order with no separator, and the
small-detail summary prompt is the fixed instruction preamble followed by
the extracted text verbatim. -/
theorem spec_c7_pdf_concat_prompt :
    extract_text ⟨"doc.pdf".data, ["Intro text.".data, "Details text.".data], [], []⟩ =
      some "Intro text.Details text.".data ∧
    (∀ t : Str, summaryPrompt t "small".data = smallSummaryPreamble ++ t) ∧
    summaryPrompt "Intro text.Details text.".data "small".data =
      smallSummaryPreamble ++ "Intro text.Details text.".data :=
  ⟨by decide, fun t => by simp [summaryPrompt], by simp [summaryPrompt]⟩

/-! ## The leading-marker strip eats an opening emphasis token -/

/-- Claim C9: when a line's text begins with the two-star marker token,
the leading-marker strip consumes that opening token before the emphasis
split runs, so the parity of the split segments is inverted: the text
that was meant to be emphasised is rendered plain and the text after the
closing token lands inside the strong-emphasis markup. -/
theorem spec_c9_parity_inverted (c : Char) (a b : Str)
    (hm : isMarker c = false) (hw : isPyWS c = false)
    (ha : '*' ∉ c :: a) (hb : '*' ∉ b)
    (hbne : b ≠ []) (hbr : pyStripRight b = b) :
    formatSummaryLine ('*' :: '*' :: ((c :: a) ++ '*' :: '*' :: b)) =
      some ("• ".data ++ (c :: a) ++ strongWrap b ++ "<br><br>".data) := by
  have hlastb : ∀ d, b.getLast? = some d → isPyWS d = false :=
    fun d hd => not_ws_getLast_of_stripRight_eq hbr hd
  have hstrip : pyStrip ('*' :: '*' :: ((c :: a) ++ '*' :: '*' :: b)) =
      '*' :: '*' :: ((c :: a) ++ '*' :: '*' :: b) := by
    refine pyStrip_eq_self ?_ ?_
    · intro e he
      rw [show ('*' :: '*' :: ((c :: a) ++ '*' :: '*' :: b)).head? = some '*' from rfl] at he
      injection he with he'
      subst he'
      rfl
    · intro d hd
      rw [show ('*' :: '*' :: ((c :: a) ++ '*' :: '*' :: b)) =
            (['*', '*'] ++ (c :: a) ++ ['*', '*']) ++ b from by simp,
        List.getLast?_append_of_ne_nil _ hbne] at hd
      exact hlastb d hd
  rw [formatSummaryLine_eq_some (by rw [hstrip]; simp)]
  rw [hstrip]
  have hlm : lstripMarkers ('*' :: '*' :: ((c :: a) ++ '*' :: '*' :: b)) =
      (c :: a) ++ '*' :: '*' :: b := by
    show List.dropWhile isMarker ('*' :: '*' :: ((c :: a) ++ '*' :: '*' :: b)) = _
    rw [show ('*' :: '*' :: ((c :: a) ++ '*' :: '*' :: b)) =
          '*' :: '*' :: c :: (a ++ '*' :: '*' :: b) from by simp]
    rw [List.dropWhile_cons, List.dropWhile_cons, List.dropWhile_cons]
    simp [show isMarker '*' = true from rfl, hm]
  rw [hlm]
  have hstrip2 : pyStrip ((c :: a) ++ '*' :: '*' :: b) = (c :: a) ++ '*' :: '*' :: b := by
    refine pyStrip_eq_self ?_ ?_
    · intro e he
      rw [show ((c :: a) ++ '*' :: '*' :: b).head? = some c from rfl] at he
      injection he with he'
      subst he'
      exact hw
    · intro d hd
      rw [show ((c :: a) ++ '*' :: '*' :: b) = ((c :: a) ++ ['*', '*']) ++ b from by simp,
        List.getLast?_append_of_ne_nil _ hbne] at hd
      exact hlastb d hd
  rw [hstrip2]
  rw [splitStar2_append_token (c :: a) ha b, splitStar2_no_star b hb]
  simp [emphAux]

/-- Witness for claim C9 on the line of an opening token, the word Bold,
a closing token and the text rest: Bold is rendered plain and the tail is
emphasised. -/
theorem spec_c9_parity_inverted_witness :
    formatSummaryLine ('*' :: '*' :: (('B' :: "old".data) ++ '*' :: '*' :: " rest".data)) =
      some ("• ".data ++ ('B' :: "old".data) ++ strongWrap " rest".data ++ "<br><br>".data) :=
  spec_c9_parity_inverted 'B' "old".data " rest".data
    (by decide) (by decide) (by decide) (by decide) (by decide) (by decide)

/-! ## Idempotence on already-normalized input -/

theorem joinWith_head?_cons (sep : Str) (c : Char) (t : Str) (ls : List Str) :
    (joinWith sep ((c :: t) :: ls)).head? = some c := by
  cases ls with
  | nil => rfl
  | cons y ls => rw [joinWith_cons_cons]; rfl

theorem joinWith_ne_nil (sep : Str) : ∀ (x : Str) (ls : List Str), x ≠ [] →
    joinWith sep (x :: ls) ≠ []
  | _, [], hx => hx
  | x, y :: ls, hx => by
      rw [joinWith_cons_cons]
      intro hc
      rcases List.append_eq_nil.mp hc with ⟨h1, _⟩
      rcases List.append_eq_nil.mp h1 with ⟨h2, _⟩
      exact hx h2

theorem joinWith_getLast? {sep : Str} : ∀ (ls : List Str), (∀ l ∈ ls, l ≠ []) →
    ∀ y, ls.getLast? = some y → (joinWith sep ls).getLast? = y.getLast?
  | [], _, _, hy => by simp at hy
  | [x], _, y, hy => by
      have hxy : x = y := by simpa using hy
      subst hxy
      rfl
  | x :: x' :: ls, h, y, hy => by
      rw [joinWith_cons_cons]
      have hJ : joinWith sep (x' :: ls) ≠ [] :=
        joinWith_ne_nil sep x' ls (h x' (List.mem_cons_of_mem x (List.mem_cons_self x' ls)))
      rw [List.getLast?_append_of_ne_nil _ hJ]
      exact joinWith_getLast? (x' :: ls) (fun l hl => h l (List.mem_cons_of_mem _ hl)) y
        (by rwa [List.getLast?_cons_cons] at hy)

theorem formatSummaryLine_normalized (c : Str)
    (h1 : c ≠ []) (h2 : pyStripLeft c = c) (h3 : pyStripRight c = c) (h4 : '*' ∉ c) :
    formatSummaryLine ('•' :: ' ' :: c) = some ("• ".data ++ c ++ "<br><br>".data) := by
  have hlastc : ∀ d, c.getLast? = some d → isPyWS d = false :=
    fun d hd => not_ws_getLast_of_stripRight_eq h3 hd
  have hstrip : pyStrip ('•' :: ' ' :: c) = '•' :: ' ' :: c := by
    refine pyStrip_eq_self ?_ ?_
    · intro e he
      rw [show ('•' :: ' ' :: c).head? = some '•' from rfl] at he
      injection he with he'
      subst he'
      rfl
    · intro d hd
      rw [show ('•' :: ' ' :: c) = ['•', ' '] ++ c from rfl,
        List.getLast?_append_of_ne_nil _ h1] at hd
      exact hlastc d hd
  rw [formatSummaryLine_eq_some (by rw [hstrip]; simp)]
  rw [hstrip]
  have hlm : lstripMarkers ('•' :: ' ' :: c) = ' ' :: c := by
    show List.dropWhile isMarker ('•' :: ' ' :: c) = ' ' :: c
    rw [List.dropWhile_cons, List.dropWhile_cons]
    simp [show isMarker '•' = true from rfl, show isMarker ' ' = false from rfl]
  rw [hlm]
  have hsp : pyStrip (' ' :: c) = c := by
    unfold pyStrip
    have hr : pyStripRight (' ' :: c) = ' ' :: c := by
      refine pyStripRight_eq_self ?_
      intro d hd
      rw [show (' ' :: c) = [' '] ++ c from rfl,
        List.getLast?_append_of_ne_nil _ h1] at hd
      exact hlastc d hd
    rw [hr]
    show List.dropWhile isPyWS (' ' :: c) = c
    rw [List.dropWhile_cons]
    simp only [show isPyWS ' ' = true from rfl, if_true]
    exact h2
  rw [hsp]
  rw [splitStar2_no_star c h4]
  simp [emphAux]

theorem filterMap_comp_map (g : Str → Option Str) (f out : Str → Str) :
    ∀ (cs : List Str), (∀ c ∈ cs, g (f c) = some (out c)) →
      (cs.map f).filterMap g = cs.map out
  | [], _ => rfl
  | c :: cs, h => by
      simp only [List.map_cons, List.filterMap_cons, h c (List.mem_cons_self c cs)]
      rw [filterMap_comp_map g f out cs (fun x hx => h x (List.mem_cons_of_mem _ hx))]

/-- Claim C6: on already-normalized input - every line one bullet glyph,
a space and marker-free stripped content - the summary formatter emits
exactly the same bullet contents, one normalized glyph per line and no
doubled glyphs (the content is required not to begin with a further
bullet glyph, as normalized output never does). -/
theorem spec_c6_idempotent (cs : List Str) (hne : cs ≠ [])
    (h : ∀ c ∈ cs, c ≠ [] ∧ pyStripLeft c = c ∧ pyStripRight c = c ∧
          '\n' ∉ c ∧ '*' ∉ c ∧ c.head? ≠ some '•') :
    formattedLines (joinWith ['\n'] (cs.map (fun c => '•' :: ' ' :: c))) =
      cs.map (fun c => "• ".data ++ c ++ "<br><br>".data) := by
  obtain ⟨c0, cs', rfl⟩ : ∃ c0 cs', cs = c0 :: cs' := by
    cases cs with
    | nil => exact absurd rfl hne
    | cons a bl => exact ⟨a, bl, rfl⟩
  have hlines_ne : ∀ l ∈ (c0 :: cs').map (fun c => '•' :: ' ' :: c), l ≠ [] := by
    intro l hl
    rw [List.mem_map] at hl
    obtain ⟨x, _, rfl⟩ := hl
    simp
  have hstrip : pyStrip (joinWith ['\n'] ((c0 :: cs').map (fun c => '•' :: ' ' :: c))) =
      joinWith ['\n'] ((c0 :: cs').map (fun c => '•' :: ' ' :: c)) := by
    refine pyStrip_eq_self ?_ ?_
    · intro e he
      rw [List.map_cons, joinWith_head?_cons] at he
      injection he with he'
      subst he'
      rfl
    · intro d hd
      obtain ⟨clast, hcl⟩ : ∃ y, (c0 :: cs').getLast? = some y := by
        cases hg : (c0 :: cs').getLast? with
        | none =>
            rw [List.getLast?_eq_none_iff] at hg
            exact absurd hg (List.cons_ne_nil c0 cs')
        | some y => exact ⟨y, rfl⟩
      have hclmem : clast ∈ c0 :: cs' := List.mem_of_mem_getLast? hcl
      have hlinesLast : ((c0 :: cs').map (fun c => '•' :: ' ' :: c)).getLast? =
          some ('•' :: ' ' :: clast) := by
        rw [List.getLast?_map, hcl]
        rfl
      rw [joinWith_getLast? _ hlines_ne _ hlinesLast] at hd
      have hc := h clast hclmem
      rw [show ('•' :: ' ' :: clast) = ['•', ' '] ++ clast from rfl,
        List.getLast?_append_of_ne_nil _ hc.1] at hd
      exact not_ws_getLast_of_stripRight_eq hc.2.2.1 hd
  have hnl : ∀ l ∈ (c0 :: cs').map (fun c => '•' :: ' ' :: c), '\n' ∉ l := by
    intro l hl
    rw [List.mem_map] at hl
    obtain ⟨x, hx, rfl⟩ := hl
    intro hm
    rcases List.mem_cons.mp hm with h' | hm2
    · exact absurd h' (by decide)
    · rcases List.mem_cons.mp hm2 with h' | hm3
      · exact absurd h' (by decide)
      · exact (h x hx).2.2.2.1 hm3
  have hline : ∀ x ∈ c0 :: cs',
      formatSummaryLine ('•' :: ' ' :: x) = some ("• ".data ++ x ++ "<br><br>".data) := by
    intro x hx
    have hc := h x hx
    exact formatSummaryLine_normalized x hc.1 hc.2.1 hc.2.2.1 hc.2.2.2.2.1
  unfold formattedLines
  rw [hstrip]
  rw [splitOnC_joinWith ((c0 :: cs').map (fun c => '•' :: ' ' :: c)) (by simp) hnl]
  exact filterMap_comp_map formatSummaryLine _ _ (c0 :: cs') hline

/-- Witness for claim C6 on the two normalized bullet lines alpha and
beta. -/
theorem spec_c6_idempotent_witness :
    formattedLines (joinWith ['\n'] ((["alpha".data, "beta".data]).map (fun c => '•' :: ' ' :: c))) =
      ["alpha".data, "beta".data].map (fun c => "• ".data ++ c ++ "<br><br>".data) :=
  spec_c6_idempotent ["alpha".data, "beta".data] (by decide) (by decide)

/-! ## Unknown extensions are rejected without reading content -/

theorem char_toNat_ofNat (n : Nat) (h : n.isValidChar) : (Char.ofNat n).toNat = n := by
  unfold Char.ofNat
  rw [dif_pos h]
  rfl

theorem lowerC_eq_dot {c : Char} (h : lowerC c = '.') : c = '.' := by
  unfold lowerC at h
  split at h
  · rename_i hc
    obtain ⟨hc1, hc2⟩ := hc
    exfalso
    have hv : Nat.isValidChar (c.toNat + 32) := Or.inl (by omega)
    have h2 := congrArg Char.toNat h
    rw [char_toNat_ofNat _ hv] at h2
    rw [show ('.' : Char).toNat = 46 from rfl] at h2
    omega
  · exact h

theorem extOf_of_suffix (name : Str) (ext : Str) (hdot : '.' ∉ ext)
    (hsuf : ('.' :: ext) <:+ pyLower name) :
    ∃ e, extOf name = some e ∧ pyLower e = ext := by
  obtain ⟨t, ht⟩ := hsuf
  have hmap : name.map lowerC = t ++ '.' :: ext := ht.symm
  obtain ⟨n1, n2, hname, _, hn2⟩ := List.map_eq_append_iff.mp hmap
  obtain ⟨d, e, hn2e, hd, he⟩ := List.map_eq_cons_iff.mp hn2
  have hd' : d = '.' := lowerC_eq_dot hd
  subst hd'
  subst hn2e
  subst hname
  refine ⟨e, ?_, he⟩
  have hedot : ∀ x ∈ e.reverse, x ≠ '.' := by
    intro x hx hxd
    subst hxd
    have hmem : lowerC '.' ∈ ext := by
      rw [← he]
      exact List.mem_map_of_mem lowerC (List.mem_reverse.mp hx)
    rw [show lowerC '.' = '.' from by decide] at hmem
    exact hdot hmem
  unfold extOf
  rw [if_pos (show '.' ∈ n1 ++ '.' :: e from by simp)]
  have htw : (n1 ++ '.' :: e).reverse.takeWhile (fun c => c ≠ '.') = e.reverse := by
    rw [show (n1 ++ '.' :: e).reverse = e.reverse ++ '.' :: n1.reverse from by simp]
    rw [List.takeWhile_append_of_pos (fun x hx => decide_eq_true (hedot x hx))]
    rw [show List.takeWhile (fun c => c ≠ '.') ('.' :: n1.reverse) = [] from by
      rw [List.takeWhile_cons]; simp]
    simp
  rw [htw, List.reverse_reverse]

theorem not_endsWith_of_extOf (name : Str) (ext : Str) (hdot : '.' ∉ ext)
    (h : ∀ e, extOf name = some e → pyLower e ≠ ext) :
    endsWithPy (pyLower name) ('.' :: ext) = false := by
  cases hb : endsWithPy (pyLower name) ('.' :: ext) with
  | false => rfl
  | true =>
      exfalso
      have hsuf : ('.' :: ext) <:+ pyLower name := List.isSuffixOf_iff_suffix.mp hb
      obtain ⟨e, he1, he2⟩ := extOf_of_suffix name ext hdot hsuf
      exact h e he1 he2

/-- Claim C8: for every filename whose extension - the text after the last
dot, compared case-insensitively - is none of pdf, docx or pptx
(including names with no dot at all), extract_text returns None, for
every possible content of the upload: the detection is terminal, nothing
is raised, and the result does not depend on the file bytes. -/
theorem spec_c8_unknown_extension (name : Str) (P D : List Str) (S : List (Option Str))
    (h : ∀ e, extOf name = some e →
        pyLower e ≠ "pdf".data ∧ pyLower e ≠ "docx".data ∧ pyLower e ≠ "pptx".data) :
    extract_text ⟨name, P, D, S⟩ = none := by
  have hpdf : endsWithPy (pyLower name) ".pdf".data = false :=
    not_endsWith_of_extOf name "pdf".data (by decide) (fun e he => (h e he).1)
  have hdocx : endsWithPy (pyLower name) ".docx".data = false :=
    not_endsWith_of_extOf name "docx".data (by decide) (fun e he => (h e he).2.1)
  have hpptx : endsWithPy (pyLower name) ".pptx".data = false :=
    not_endsWith_of_extOf name "pptx".data (by decide) (fun e he => (h e he).2.2)
  simp [extract_text, hpdf, hdocx, hpptx]

/-- Witness for claim C8: a txt upload is rejected with None even though
every kind of content is present. -/
theorem spec_c8_unknown_extension_witness :
    extract_text ⟨"notes.txt".data, ["page".data], ["para".data], [some "shape".data]⟩ = none :=
  spec_c8_unknown_extension "notes.txt".data ["page".data] ["para".data] [some "shape".data]
    (fun e he => by
      rw [show extOf "notes.txt".data = some "txt".data from by decide] at he
      injection he with he'
      subst he'
      exact ⟨by decide, by decide, by decide⟩)
